import Mathlib

/-!
Verification of the Alpha15 intraday breakout signal engine.

The definitions below are a shallow embedding of the two source files
`alpha15.py` and `masterlist.py`.  Prices are modelled as rationals,
calendar dates as integers (days since 1970-01-01, so that Python's
`date.weekday()` becomes `(d + 3) % 7` with Monday = 0; the source
compares holiday dates through their ISO strings, an injective encoding
of dates, which we model as the dates themselves), and fallible
operations return `Option`.  Data fetched from the market-data gateway
is passed in as explicit arguments, since fetching is I/O.
-/

namespace Alpha15

/-- One OHLC bar (daily or 15-minute).  The field `open_` stands for the
source's `open` column, which is a reserved word in Lean. -/
structure Candle where
  open_ : ℚ
  high : ℚ
  low : ℚ
  close : ℚ
  deriving DecidableEq, Repr

/-- A directional alert.  The source represents signals as the strings
"BUY" / "SELL", with Python `None` for no signal; we use `Option Signal`
with `none` playing the role of NONE. -/
inductive Signal where
  | BUY
  | SELL
  deriving DecidableEq, Repr

/-! ### Condition Evaluator (alpha15.py lines 321-360) -/

/-- The pure breakout decision of `check_trading_conditions` once all data
has been gathered: lines 321-360 of `alpha15.py`.  The first member of
each of the source's `buy_conditions` / `sell_conditions` lists repeats
the surrounding branch condition, which we keep. -/
def evaluate (poc atr : ℚ) (first_candle : Candle) (current_ltp : ℚ) : Option Signal :=
  let open_to_high := first_candle.high - first_candle.open_
  let open_to_low := first_candle.open_ - first_candle.low
  if first_candle.open_ > poc then
    if first_candle.open_ > poc ∧ atr > open_to_high ∧ current_ltp > first_candle.high then
      some Signal.BUY
    else
      none
  else if first_candle.open_ < poc then
    if first_candle.open_ < poc ∧ atr > open_to_low ∧ current_ltp < first_candle.low then
      some Signal.SELL
    else
      none
  else
    none

/-! ### Indicator Calculator: ATR (alpha15.py lines 114-160) -/

/-- True ranges of all bars after the first; `pc` is the previous close.
Embeds `TR = max(H-L, |H-PC|, |L-PC|)` from lines 140-143. -/
def trueRangesFrom (pc : ℚ) : List Candle → List ℚ
  | [] => []
  | c :: rest =>
      max (c.high - c.low) (max |c.high - pc| |c.low - pc|) :: trueRangesFrom c.close rest

/-- True ranges of a candle sequence.  The first bar has no previous
close (its `H-PC` / `L-PC` are NaN in the source, which pandas `max`
skips), so its true range is `high - low`. -/
def trueRanges : List Candle → List ℚ
  | [] => []
  | c :: rest => (c.high - c.low) :: trueRangesFrom c.close rest

/-- `calculate_atr` of `alpha15.py` (lines 136-153), applied to the
fetched daily candles: `None` when fewer than 15 bars, otherwise the
seed mean of the first 14 true ranges followed by one Wilder smoothing
step `(atr * 13 + TR[i]) / 14` per remaining bar. -/
def calculate_atr (candles : List Candle) : Option ℚ :=
  if candles.length < 15 then
    none
  else
    let tr := trueRanges candles
    some ((tr.drop 14).foldl (fun a t => (a * 13 + t) / 14) ((tr.take 14).sum / 14))

/-- A 15-bar daily sequence: fourteen bars of true range 1 followed by a
final bar of true range 15. -/
def atr_boundary_example : List Candle :=
  List.replicate 14 ⟨0, 1, 0, 0⟩ ++ [⟨0, 15, 0, 0⟩]

/-! ### Indicator Calculator: TPO profile and POC (alpha15.py lines 163-224) -/

/-- `np.arange(a, b, s)` for a positive step over exact rationals: the
values `a + k * s` for `k < ⌈(b - a) / s⌉`. -/
def arange (a b s : ℚ) : List ℚ :=
  (List.range (⌈(b - a) / s⌉).toNat).map (fun k : ℕ => a + (k : ℚ) * s)

/-- `df['low'].min()` over the fetched candles (0 on the empty list,
which the source rules out before reaching this point). -/
def min_low : List Candle → ℚ
  | [] => 0
  | c :: rest => rest.foldl (fun m x => min m x.low) c.low

/-- `df['high'].max()` over the fetched candles. -/
def max_high : List Candle → ℚ
  | [] => 0
  | c :: rest => rest.foldl (fun m x => max m x.high) c.high

/-- The source's bin test (line 203): candle `c` contributes to the bin
starting at `p` when `c.low <= p + adj` and `c.high >= p`. -/
def bin_overlaps (c : Candle) (p adj : ℚ) : Bool :=
  decide (c.low ≤ p + adj) && decide (p ≤ c.high)

/-- `tpo_count[price]`: the number of candles overlapping the bin at
`p`.  Each overlap also appends one letter (or '?') to the bin's TPO
string, so the string is non-empty exactly when this count is non-zero. -/
def tpo_count (candles : List Candle) (adj p : ℚ) : ℕ :=
  (candles.filter (fun c => bin_overlaps c p adj)).length

/-- The TPO profile rows in ascending price order, restricted to
non-empty bins (`profile_df[profile_df['TPO'] != ""]`, lines 188-209). -/
def market_profile (candles : List Candle) (adj : ℚ) : List (ℚ × ℕ) :=
  let min_price := (⌊min_low candles / adj⌋ : ℚ) * adj
  let max_price := (⌈max_high candles / adj⌉ : ℚ) * adj
  ((arange min_price (max_price + adj) adj).map
    (fun p => (p, tpo_count candles adj p))).filter (fun r => r.2 ≠ 0)

/-- pandas `Series.idxmax` over the profile rows: the first row (in list
order) attaining the maximum count. -/
def idxmax_row : List (ℚ × ℕ) → Option (ℚ × ℕ)
  | [] => none
  | r :: rest =>
      match idxmax_row rest with
      | none => some r
      | some r2 => if r.2 < r2.2 then some r2 else some r

/-- `calculate_poc` of `alpha15.py` (lines 183-217), applied to the
fetched prior-day 15-minute candles: bin width `tick_size * 0.05`,
profile rows as above, POC = price of the first row with maximal count. -/
def calculate_poc (candles : List Candle) (tick_size : ℚ) : Option ℚ :=
  if candles.isEmpty then
    none
  else
    let tick_size_adj := tick_size * (0.05 : ℚ)
    let prof := market_profile candles tick_size_adj
    if prof.isEmpty then
      none
    else
      (idxmax_row prof).map Prod.fst

/-- A single prior-day candle with low 0.03 and high 0.04. -/
def poc_example_candle : Candle := ⟨3/100, 4/100, 3/100, 4/100⟩

/-! ### check_trading_conditions (alpha15.py lines 278-360) -/

/-- A wall-clock time of day. -/
structure ClockTime where
  hour : ℕ
  minute : ℕ
  deriving DecidableEq, Repr

/-- The 9:30-9:45 monitoring-window test of line 285. -/
def in_monitoring_window (t : ClockTime) : Bool :=
  t.hour == 9 && (30 ≤ t.minute && t.minute ≤ 45)

/-- The first-candle-incomplete test of `get_15min_candles` (line 233):
before 9:30 the fetch is skipped. -/
def first_candle_incomplete (t : ClockTime) : Bool :=
  t.hour < 9 || (t.hour == 9 && t.minute < 30)

/-- `get_15min_candles` (lines 227-257): `None` before 9:30, otherwise
whatever the gateway fetch produced (`fetched`). -/
def get_15min_candles (t : ClockTime) (fetched : Option (List Candle)) :
    Option (List Candle) :=
  if first_candle_incomplete t then none else fetched

/-- `check_trading_conditions` (lines 278-360) over the outcomes of its
data fetches.  The monitoring-window test at line 285 only logs: its
early `return None` is commented out in the source, so it does not
appear here and the function continues into indicator evaluation.  The
remaining steps, in source order: POC, today's 15-minute candles
(requiring at least 2), ATR, first-candle extraction, LTP, decision. -/
def check_trading_conditions (t : ClockTime) (poc_result : Option ℚ)
    (fetched : Option (List Candle)) (atr_result : Option ℚ)
    (ltp_result : Option ℚ) : Option Signal :=
  match poc_result with
  | none => none
  | some poc =>
    match get_15min_candles t fetched with
    | none => none
    | some candles_15min =>
      if candles_15min.length < 2 then none
      else
        match atr_result with
        | none => none
        | some atr =>
          match candles_15min.head? with
          | none => none
          | some first_candle =>
            match ltp_result with
            | none => none
            | some current_ltp => evaluate poc atr first_candle current_ltp

/-! ### Instrument list (masterlist.py lines 47-88, alpha15.py lines 370-372) -/

/-- One instrument as the scheduler carries it: the entries of
`symbol_data` in `signal_detection`. -/
structure Instrument where
  symbol : String
  tick_size : ℚ
  deriving DecidableEq, Repr

/-- One filtered future as `masterlist.py` collects it (we keep only the
fields relevant here; `name`, `token` and `lotsize` play no role). -/
structure Fut where
  symbol : String
  tick_size : ℚ
  deriving DecidableEq, Repr

/-- `save_symbols` of `masterlist.py` (lines 83-88) as the list of lines
written to `symbols.txt`: only the symbol of each future is written. -/
def save_symbols (futures_list : List Fut) : List String :=
  futures_list.map Fut.symbol

/-- `symbol_data` construction of `signal_detection` (line 372): every
symbol read from `symbols.txt` is paired with the constant tick size
0.05. -/
def symbol_data (symbols : List String) : List Instrument :=
  symbols.map (fun s => ⟨s, (0.05 : ℚ)⟩)

/-! ### Session Scheduler (alpha15.py lines 363-453) -/

/-- The outcome of one `check_trading_conditions` call as the scheduler
sees it: either a returned value (possibly `none`, i.e. no signal) or a
raised exception. -/
inductive Outcome where
  | sig (s : Option Signal)
  | err

/-- The scheduler's mutable state: the alerted set, the stored session
date and the holiday calendar snapshot. -/
structure SchedState where
  alerted : Finset String
  date : ℤ
  holidays : List ℤ

/-- One observation of the wall clock at the top of a cycle. -/
structure Obs where
  date : ℤ
  hour : ℕ
  minute : ℕ

/-- The date-rollover check at the top of the loop (lines 383-387): when
the observed date is strictly greater than the stored date, the alerted
set is cleared, the date advanced and the holiday calendar replaced by a
fresh fetch. -/
def rollover_check (obs : Obs) (fresh : List ℤ) (st : SchedState) : SchedState :=
  if st.date < obs.date then ⟨∅, obs.date, fresh⟩ else st

/-- Line 390: the window has ended (after 9:45), so the loop breaks. -/
def window_ended (obs : Obs) : Bool :=
  9 < obs.hour || (obs.hour == 9 && 45 < obs.minute)

/-- Line 393: before 9:30, so the loop sleeps and continues. -/
def before_window (obs : Obs) : Bool :=
  obs.hour < 9 || (obs.hour == 9 && obs.minute < 30)

/-- The primary pass (lines 401-421): walk `symbol_data` in order,
skipping symbols already in the alerted set; an exception queues the
item on `failed_symbols`, a returned signal adds the symbol to the
alerted set.  Returns the updated alerted set, the failed queue, and the
calls made, each recorded as (symbol, holidays passed to the call). -/
def primary_pass (f : String → Outcome) (holidays : List ℤ) :
    List Instrument → Finset String → Finset String × List Instrument × List (String × List ℤ)
  | [], alerted => (alerted, [], [])
  | item :: rest, alerted =>
    if item.symbol ∈ alerted then
      primary_pass f holidays rest alerted
    else
      match f item.symbol with
      | Outcome.err =>
        let r := primary_pass f holidays rest alerted
        (r.1, item :: r.2.1, (item.symbol, holidays) :: r.2.2)
      | Outcome.sig s =>
        let r := primary_pass f holidays rest
          (if s.isSome then insert item.symbol alerted else alerted)
        (r.1, r.2.1, (item.symbol, holidays) :: r.2.2)

/-- The same-cycle retry pass (lines 424-445) over the failed queue:
identical skip logic, no further queueing. -/
def retry_pass (g : String → Outcome) (holidays : List ℤ) :
    List Instrument → Finset String → Finset String × List (String × List ℤ)
  | [], alerted => (alerted, [])
  | item :: rest, alerted =>
    if item.symbol ∈ alerted then
      retry_pass g holidays rest alerted
    else
      match g item.symbol with
      | Outcome.err =>
        let r := retry_pass g holidays rest alerted
        (r.1, (item.symbol, holidays) :: r.2)
      | Outcome.sig s =>
        let r := retry_pass g holidays rest
          (if s.isSome then insert item.symbol alerted else alerted)
        (r.1, (item.symbol, holidays) :: r.2)

/-- One iteration of the `while True` loop of `signal_detection`
(lines 379-451): rollover check first, then the window tests (both of
which evaluate no instrument), then the primary pass followed by the
same-cycle retry pass.  `f` and `g` give the outcome of each
`check_trading_conditions` call in the respective pass; the returned
list records every call made, with the holiday list it was given. -/
def cycle (instruments : List Instrument) (obs : Obs) (fresh : List ℤ)
    (f g : String → Outcome) (st : SchedState) :
    SchedState × List (String × List ℤ) :=
  let st1 := rollover_check obs fresh st
  if window_ended obs then (st1, [])
  else if before_window obs then (st1, [])
  else
    let p := primary_pass f st1.holidays instruments st1.alerted
    let r := retry_pass g st1.holidays p.2.1 p.1
    (⟨r.1, st1.date, st1.holidays⟩, p.2.2 ++ r.2)

/-- The inputs one cycle consumes: the clock observation, the holiday
list a fresh fetch would return, and the two outcome assignments. -/
structure CycleInput where
  obs : Obs
  fresh : List ℤ
  f : String → Outcome
  g : String → Outcome

/-- A run of successive scheduler cycles, concatenating the calls made. -/
def run_cycles (instruments : List Instrument) :
    List CycleInput → SchedState → SchedState × List (String × List ℤ)
  | [], st => (st, [])
  | inp :: rest, st =>
    let c := cycle instruments inp.obs inp.fresh inp.f inp.g st
    let r := run_cycles instruments rest c.1
    (r.1, c.2 ++ r.2)

/-! ### get_last_trading_day (alpha15.py lines 84-92) -/

/-- Python's `date.weekday()` (Monday = 0) on a day count since
1970-01-01, which was a Thursday. -/
def weekday (d : ℤ) : ℤ := (d + 3) % 7

/-- The loop guard of `get_last_trading_day` (line 90): the day is a
weekend day or a listed holiday. -/
def is_non_trading (holidays : List ℤ) (d : ℤ) : Bool :=
  decide (5 ≤ weekday d) || decide (d ∈ holidays)

/-- The descending scan of the `while` loop, with explicit fuel. -/
def last_trading_aux (holidays : List ℤ) : ℕ → ℤ → Option ℤ
  | 0, _ => none
  | n + 1, d =>
    if is_non_trading holidays d then last_trading_aux holidays n (d - 1)
    else some d

/-- `get_last_trading_day` (lines 84-92): step back from the day before
`current` until a weekday not in the holiday list is found.  The fuel
`7 * (holidays.length + 1)` is proved sufficient below, so the `Option`
never actually fails. -/
def get_last_trading_day (current : ℤ) (holidays : List ℤ) : Option ℤ :=
  last_trading_aux holidays (7 * (holidays.length + 1)) (current - 1)

/-! ## Basic lemmas -/

theorem trueRangesFrom_length (pc : ℚ) (l : List Candle) :
    (trueRangesFrom pc l).length = l.length := by
  induction l generalizing pc with
  | nil => rfl
  | cons c rest ih => simp [trueRangesFrom, ih]

theorem trueRanges_length (l : List Candle) : (trueRanges l).length = l.length := by
  cases l with
  | nil => rfl
  | cons c rest => simp [trueRanges, trueRangesFrom_length]

theorem foldl_min_le (l : List Candle) (a : ℚ) :
    l.foldl (fun m x => min m x.low) a ≤ a := by
  induction l generalizing a with
  | nil => exact le_refl a
  | cons c rest ih => exact le_trans (ih _) (min_le_left _ _)

theorem foldl_min_le_low {c : Candle} {l : List Candle} (hc : c ∈ l) (a : ℚ) :
    l.foldl (fun m x => min m x.low) a ≤ c.low := by
  induction l generalizing a with
  | nil => cases hc
  | cons d rest ih =>
    rcases List.mem_cons.mp hc with h | h
    · subst h; exact le_trans (foldl_min_le rest _) (min_le_right _ _)
    · exact ih h _

theorem foldl_min_attained (l : List Candle) (a : ℚ) :
    l.foldl (fun m x => min m x.low) a = a ∨
      ∃ c ∈ l, l.foldl (fun m x => min m x.low) a = c.low := by
  induction l generalizing a with
  | nil => exact Or.inl rfl
  | cons c rest ih =>
    rcases ih (min a c.low) with h | ⟨c', hc', h⟩
    · rcases min_choice a c.low with h' | h'
      · exact Or.inl (by rw [List.foldl_cons, h, h'])
      · exact Or.inr ⟨c, List.mem_cons_self c rest, by rw [List.foldl_cons, h, h']⟩
    · exact Or.inr ⟨c', List.mem_cons_of_mem c hc', by rw [List.foldl_cons, h]⟩

theorem min_low_le {candles : List Candle} {c : Candle} (hc : c ∈ candles) :
    min_low candles ≤ c.low := by
  cases candles with
  | nil => cases hc
  | cons d rest =>
    rcases List.mem_cons.mp hc with h | h
    · subst h; exact foldl_min_le rest _
    · exact foldl_min_le_low h _

theorem min_low_attained {candles : List Candle} (h : candles ≠ []) :
    ∃ c ∈ candles, min_low candles = c.low := by
  cases candles with
  | nil => exact absurd rfl h
  | cons d rest =>
    rcases foldl_min_attained rest d.low with h' | ⟨c', hc', h'⟩
    · exact ⟨d, List.mem_cons_self d rest, h'⟩
    · exact ⟨c', List.mem_cons_of_mem d hc', h'⟩

theorem le_foldl_max (l : List Candle) (a : ℚ) :
    a ≤ l.foldl (fun m x => max m x.high) a := by
  induction l generalizing a with
  | nil => exact le_refl a
  | cons c rest ih => exact le_trans (le_max_left _ _) (ih _)

theorem high_le_foldl_max {c : Candle} {l : List Candle} (hc : c ∈ l) (a : ℚ) :
    c.high ≤ l.foldl (fun m x => max m x.high) a := by
  induction l generalizing a with
  | nil => cases hc
  | cons d rest ih =>
    rcases List.mem_cons.mp hc with h | h
    · subst h; exact le_trans (le_max_right _ _) (le_foldl_max rest _)
    · exact ih h _

theorem le_max_high {candles : List Candle} {c : Candle} (hc : c ∈ candles) :
    c.high ≤ max_high candles := by
  cases candles with
  | nil => cases hc
  | cons d rest =>
    rcases List.mem_cons.mp hc with h | h
    · subst h; exact le_foldl_max rest _
    · exact high_le_foldl_max h _

theorem idxmax_row_isSome {rows : List (ℚ × ℕ)} (h : rows ≠ []) :
    ∃ r, idxmax_row rows = some r := by
  cases rows with
  | nil => exact absurd rfl h
  | cons x rest =>
    cases he : idxmax_row rest with
    | none => exact ⟨x, by simp [idxmax_row, he]⟩
    | some r2 =>
      by_cases hc : x.2 < r2.2
      · exact ⟨r2, by simp [idxmax_row, he, hc]⟩
      · exact ⟨x, by simp [idxmax_row, he, hc]⟩

theorem idxmax_row_mem {rows : List (ℚ × ℕ)} {r : ℚ × ℕ}
    (h : idxmax_row rows = some r) : r ∈ rows := by
  induction rows with
  | nil => simp [idxmax_row] at h
  | cons x rest ih =>
    rw [show idxmax_row (x :: rest) =
        (match idxmax_row rest with
         | none => some x
         | some r2 => if x.2 < r2.2 then some r2 else some x) from rfl] at h
    cases he : idxmax_row rest with
    | none =>
      rw [he] at h
      injection h with h
      exact h ▸ List.mem_cons_self x rest
    | some r2 =>
      rw [he] at h
      dsimp only at h
      by_cases hc : x.2 < r2.2
      · rw [if_pos hc] at h
        injection h with h
        subst h
        exact List.mem_cons_of_mem x (ih he)
      · rw [if_neg hc] at h
        injection h with h
        exact h ▸ List.mem_cons_self x rest

theorem mem_market_profile_count {candles : List Candle} {adj : ℚ} {r : ℚ × ℕ}
    (hr : r ∈ market_profile candles adj) :
    r.2 ≠ 0 ∧ r.2 = tpo_count candles adj r.1 := by
  simp only [market_profile] at hr
  rw [List.mem_filter] at hr
  obtain ⟨hmap, hne⟩ := hr
  rw [List.mem_map] at hmap
  obtain ⟨p, _, rfl⟩ := hmap
  exact ⟨by simpa using hne, rfl⟩

theorem tpo_count_pos {candles : List Candle} {adj p : ℚ}
    (h : tpo_count candles adj p ≠ 0) :
    ∃ c ∈ candles, c.low ≤ p + adj ∧ p ≤ c.high := by
  unfold tpo_count at h
  have hfil : candles.filter (fun c => bin_overlaps c p adj) ≠ [] := by
    intro he; rw [he] at h; exact h rfl
  obtain ⟨c, hc⟩ := List.exists_mem_of_ne_nil _ hfil
  rw [List.mem_filter] at hc
  have hov := hc.2
  simp only [bin_overlaps, Bool.and_eq_true, decide_eq_true_eq] at hov
  exact ⟨c, hc.1, hov.1, hov.2⟩

theorem market_profile_ne_nil {candles : List Candle} {adj : ℚ}
    (hne : candles ≠ []) (hadj : 0 < adj)
    (hwf : ∀ c ∈ candles, c.low ≤ c.high) :
    market_profile candles adj ≠ [] := by
  obtain ⟨c0, hc0, hc0low⟩ := min_low_attained hne
  have hfloor_le : (⌊min_low candles / adj⌋ : ℚ) * adj ≤ min_low candles := by
    calc (⌊min_low candles / adj⌋ : ℚ) * adj
        ≤ (min_low candles / adj) * adj :=
          mul_le_mul_of_nonneg_right (Int.floor_le _) hadj.le
      _ = min_low candles := div_mul_cancel₀ _ (ne_of_gt hadj)
  have hlt : min_low candles < (⌊min_low candles / adj⌋ : ℚ) * adj + adj := by
    have h1 : min_low candles / adj < (⌊min_low candles / adj⌋ : ℚ) + 1 :=
      Int.lt_floor_add_one _
    have h2 := mul_lt_mul_of_pos_right h1 hadj
    rw [div_mul_cancel₀ _ (ne_of_gt hadj)] at h2
    linarith [h2]
  have hov : bin_overlaps c0 ((⌊min_low candles / adj⌋ : ℚ) * adj) adj = true := by
    simp only [bin_overlaps, Bool.and_eq_true, decide_eq_true_eq]
    constructor
    · rw [hc0low] at hlt ⊢
      exact hlt.le
    · calc (⌊min_low candles / adj⌋ : ℚ) * adj ≤ min_low candles := hfloor_le
        _ = c0.low := hc0low
        _ ≤ c0.high := hwf c0 hc0
  have hcount : tpo_count candles adj ((⌊min_low candles / adj⌋ : ℚ) * adj) ≠ 0 := by
    unfold tpo_count
    have hmemf : c0 ∈ candles.filter
        (fun c => bin_overlaps c ((⌊min_low candles / adj⌋ : ℚ) * adj) adj) :=
      List.mem_filter.mpr ⟨hc0, hov⟩
    intro hz
    rw [List.length_eq_zero] at hz
    rw [hz] at hmemf
    cases hmemf
  have hle_ceil : (⌊min_low candles / adj⌋ : ℚ) ≤ (⌈max_high candles / adj⌉ : ℚ) := by
    have hml : min_low candles ≤ max_high candles := by
      calc min_low candles = c0.low := hc0low
        _ ≤ c0.high := hwf c0 hc0
        _ ≤ max_high candles := le_max_high hc0
    calc (⌊min_low candles / adj⌋ : ℚ) ≤ min_low candles / adj := Int.floor_le _
      _ ≤ max_high candles / adj := (div_le_div_iff_of_pos_right hadj).mpr hml
      _ ≤ (⌈max_high candles / adj⌉ : ℚ) := Int.le_ceil _
  have hNpos : 0 < (⌈(((⌈max_high candles / adj⌉ : ℚ) * adj + adj) -
      (⌊min_low candles / adj⌋ : ℚ) * adj) / adj⌉).toNat := by
    have hpos : 0 < (((⌈max_high candles / adj⌉ : ℚ) * adj + adj) -
        (⌊min_low candles / adj⌋ : ℚ) * adj) / adj := by
      apply div_pos _ hadj
      have := mul_le_mul_of_nonneg_right hle_ceil hadj.le
      linarith
    have := Int.ceil_pos.mpr hpos
    omega
  have hmem : (⌊min_low candles / adj⌋ : ℚ) * adj ∈
      arange ((⌊min_low candles / adj⌋ : ℚ) * adj)
        ((⌈max_high candles / adj⌉ : ℚ) * adj + adj) adj := by
    unfold arange
    have h0 := List.mem_range.mpr hNpos
    have hm := List.mem_map_of_mem
      (fun k : ℕ => (⌊min_low candles / adj⌋ : ℚ) * adj + (k : ℚ) * adj) h0
    simpa using hm
  have hrow : ((⌊min_low candles / adj⌋ : ℚ) * adj,
      tpo_count candles adj ((⌊min_low candles / adj⌋ : ℚ) * adj)) ∈
      market_profile candles adj := by
    simp only [market_profile]
    refine List.mem_filter.mpr ⟨List.mem_map.mpr ⟨_, hmem, rfl⟩, by simpa using hcount⟩
  intro hnil
  rw [hnil] at hrow
  cases hrow

/-! ## Claim theorems -/

/-- C1.  The breakout decision returns BUY iff `open > poc`,
`atr > high - open` and `currentPrice > high` all hold; SELL iff
`open < poc`, `atr > open - low` and `currentPrice < low` all hold;
and NONE (here `none`) in every other case, in particular always when
`open = poc`. -/
theorem evaluate_signal_spec (poc atr ltp : ℚ) (fc : Candle) :
    (evaluate poc atr fc ltp = some Signal.BUY ↔
      (fc.open_ > poc ∧ atr > fc.high - fc.open_ ∧ ltp > fc.high)) ∧
    (evaluate poc atr fc ltp = some Signal.SELL ↔
      (fc.open_ < poc ∧ atr > fc.open_ - fc.low ∧ ltp < fc.low)) ∧
    (evaluate poc atr fc ltp = none ↔
      (¬(fc.open_ > poc ∧ atr > fc.high - fc.open_ ∧ ltp > fc.high) ∧
       ¬(fc.open_ < poc ∧ atr > fc.open_ - fc.low ∧ ltp < fc.low))) ∧
    (fc.open_ = poc → evaluate poc atr fc ltp = none) := by
  unfold evaluate
  split_ifs with h1 h2 _h3 _h4 <;>
    simp_all <;>
    constructor <;> intros <;> linarith

/-- Witness for C1: the spec's end-to-end scenario, poc = 100, first
candle open 102 / high 105 / low 101, atr = 4, current price 106. -/
theorem evaluate_signal_spec_witness :
    evaluate 100 4 ⟨102, 105, 101, 103⟩ 106 = some Signal.BUY :=
  (evaluate_signal_spec 100 4 106 ⟨102, 105, 101, 103⟩).1.mpr (by norm_num)

/-- C6.  `calculate_atr` returns the failure outcome `none` exactly when
the fetched sequence has fewer than 15 bars, and a numeric value for
every sequence of 15 or more bars.  The failure is an ordinary return
value (a skip signal for the caller), not a raised error: the embedding
is a total function into `Option`. -/
theorem calculate_atr_insufficient_iff (candles : List Candle) :
    (calculate_atr candles = none ↔ candles.length < 15) ∧
    (15 ≤ candles.length → ∃ v, calculate_atr candles = some v) := by
  unfold calculate_atr
  constructor
  · split_ifs with h <;> simp [h]
  · intro h
    split_ifs with h' <;> [omega; exact ⟨_, rfl⟩]

/-- Witness for C6 at concrete inputs: the empty sequence fails, a
15-bar sequence succeeds. -/
theorem calculate_atr_insufficient_iff_witness :
    calculate_atr [] = none ∧
    ∃ v, calculate_atr (List.replicate 15 ⟨0, 1, 0, 0⟩) = some v :=
  ⟨(calculate_atr_insufficient_iff []).1.mpr (by decide),
   (calculate_atr_insufficient_iff (List.replicate 15 ⟨0, 1, 0, 0⟩)).2 (by simp)⟩

/-- C2 counterexample.  On a sequence of exactly 15 bars `calculate_atr`
does NOT return the simple mean of the first 14 true ranges: here the
mean is 1 but the function returns (1 * 13 + 15) / 14 = 2, because the
loop `for i in range(14, len(df))` already runs once at length 15. -/
theorem atr_boundary_counterexample :
    atr_boundary_example.length = 15 ∧
    calculate_atr atr_boundary_example = some 2 ∧
    ((trueRanges atr_boundary_example).take 14).sum / 14 = 1 ∧ (2 : ℚ) ≠ 1 := by
  refine ⟨by decide, ?_, ?_, by norm_num⟩ <;>
    norm_num [atr_boundary_example, calculate_atr, trueRanges, trueRangesFrom,
      List.replicate, max_def, abs]

/-- C2 amended.  For a daily-candle sequence of length exactly 15, one
Wilder smoothing step IS applied: the result is
`(mean of the first 14 true ranges * 13 + TR of the 15th bar) / 14`,
not the bare mean. -/
theorem calculate_atr_boundary_step (candles : List Candle) (h : candles.length = 15) :
    calculate_atr candles =
      some ((((trueRanges candles).take 14).sum / 14 * 13 +
        (trueRanges candles).getD 14 0) / 14) := by
  have hlen : (trueRanges candles).length = 15 := by rw [trueRanges_length, h]
  have hdrop : ((trueRanges candles).drop 14).length = 1 := by simp [hlen]
  obtain ⟨a, ha⟩ := List.length_eq_one.mp hdrop
  have hget : (trueRanges candles)[14]? = some a := by
    have h0 : ((trueRanges candles).drop 14)[0]? = (trueRanges candles)[14 + 0]? :=
      List.getElem?_drop (trueRanges candles) 14 0
    rw [ha] at h0
    simpa using h0.symm
  unfold calculate_atr
  rw [if_neg (by omega)]
  simp [ha, List.getD_eq_getElem?_getD, hget]

/-- Witness for C2's amended theorem at a concrete 15-bar sequence. -/
theorem calculate_atr_boundary_step_witness :
    calculate_atr atr_boundary_example =
      some ((((trueRanges atr_boundary_example).take 14).sum / 14 * 13 +
        (trueRanges atr_boundary_example).getD 14 0) / 14) :=
  calculate_atr_boundary_step atr_boundary_example (by decide)

/-- C3.  On any non-empty profile whose rows are in strictly ascending
price order (as `market_profile` produces them), `idxmax_row` returns a
row of the profile whose count is maximal, and whose price is lowest
among the rows attaining that maximum. -/
theorem poc_tiebreak_spec (rows : List (ℚ × ℕ))
    (hsorted : rows.Pairwise (fun a b => a.1 < b.1)) (hne : rows ≠ []) :
    ∃ r, idxmax_row rows = some r ∧ r ∈ rows ∧
      (∀ x ∈ rows, x.2 ≤ r.2) ∧
      (∀ x ∈ rows, x.2 = r.2 → r.1 ≤ x.1) := by
  induction rows with
  | nil => exact absurd rfl hne
  | cons r rest ih =>
    rw [List.pairwise_cons] at hsorted
    cases hrest : rest with
    | nil =>
      refine ⟨r, by simp [idxmax_row], by simp, ?_, ?_⟩ <;> simp [hrest]
    | cons r' rest' =>
      obtain ⟨r2, h2eq, h2mem, h2max, h2tie⟩ := ih hsorted.2 (by simp [hrest])
      rw [← hrest] at *
      by_cases hc : r.2 < r2.2
      · refine ⟨r2, ?_, List.mem_cons_of_mem r h2mem, ?_, ?_⟩
        · simp [idxmax_row, h2eq, hc]
        · intro x hx
          rcases List.mem_cons.mp hx with hx | hx
          · subst hx; exact le_of_lt hc
          · exact h2max x hx
        · intro x hx hxe
          rcases List.mem_cons.mp hx with hx | hx
          · subst hx; omega
          · exact h2tie x hx hxe
      · refine ⟨r, ?_, List.mem_cons_self r rest, ?_, ?_⟩
        · simp [idxmax_row, h2eq, hc]
        · intro x hx
          rcases List.mem_cons.mp hx with hx | hx
          · subst hx; exact le_refl _
          · exact le_trans (h2max x hx) (by omega)
        · intro x hx _
          rcases List.mem_cons.mp hx with hx | hx
          · subst hx; exact le_refl _
          · exact le_of_lt (hsorted.1 x hx)

/-- The TPO profile of the single example candle with bin width
1 * 0.05: only the bin at price 0 (one bin width below the candle's
low of 0.03) is non-empty. -/
theorem poc_example_profile :
    market_profile [poc_example_candle] (1/20) = [(0, 1)] := by
  have hov1 : bin_overlaps poc_example_candle 0 (1/20) = true := by
    simp only [bin_overlaps, poc_example_candle, Bool.and_eq_true, decide_eq_true_eq]
    norm_num
  have hov2 : bin_overlaps poc_example_candle (1/20) (1/20) = false := by
    simp only [bin_overlaps, poc_example_candle]
    norm_num
  have hc1 : tpo_count [poc_example_candle] (1/20) 0 = 1 := by
    simp only [tpo_count, List.filter_cons, List.filter_nil, hov1]
    rfl
  have hc2 : tpo_count [poc_example_candle] (1/20) (1/20) = 0 := by
    simp only [tpo_count, List.filter_cons, List.filter_nil, hov2]
    rfl
  have harange : arange 0 (1/10) (1/20) = [0, 1/20] := by
    have h2 : (((1:ℚ)/10 - 0) / (1/20)) = 2 := by norm_num
    unfold arange
    rw [h2, show ⌈(2:ℚ)⌉ = 2 from by rw [Int.ceil_eq_iff] <;> norm_num,
      show Int.toNat 2 = 2 from rfl, show List.range 2 = [0, 1] from rfl]
    norm_num
  simp only [market_profile]
  rw [show min_low [poc_example_candle] = 3/100 from rfl,
      show max_high [poc_example_candle] = 4/100 from rfl,
      show ⌊(3:ℚ)/100 / (1/20)⌋ = 0 from by norm_num,
      show ⌈(4:ℚ)/100 / (1/20)⌉ = 1 from by rw [Int.ceil_eq_iff] <;> norm_num]
  rw [show ((0:ℤ):ℚ) * (1/20) = 0 from by norm_num,
      show ((1:ℤ):ℚ) * (1/20) + 1/20 = 1/10 from by norm_num,
      harange]
  rw [List.map_cons, List.map_cons, List.map_nil, hc1, hc2]
  rfl

/-- C4 counterexample.  For the single candle with low 0.03 and high
0.04 and tick size 1, the returned POC is the bin price 0, which lies
strictly BELOW the minimum low of the source candles: the claimed
invariant `POC ∈ [min low, max high]` fails, because bins are quantized
down to multiples of the bin width. -/
theorem poc_out_of_range_counterexample :
    calculate_poc [poc_example_candle] 1 = some 0 ∧
    min_low [poc_example_candle] = 3/100 ∧
    ¬(min_low [poc_example_candle] ≤ 0) := by
  refine ⟨?_, rfl, by rw [show min_low [poc_example_candle] = 3/100 from rfl]; norm_num⟩
  simp only [calculate_poc, List.isEmpty_cons, Bool.false_eq_true, if_false]
  rw [show (1:ℚ) * (0.05:ℚ) = 1/20 from by norm_num]
  rw [poc_example_profile]
  simp [idxmax_row]

/-- C4 amended.  For every non-empty well-formed candle list and
positive tick size, `calculate_poc` succeeds and its POC lies within
`[min low - binWidth, max high]` with `binWidth = tickSize * 0.05`: the
upper bound of the claimed interval holds, but the lower end must be
relaxed by one bin width, as the counterexample forces. -/
theorem calculate_poc_range (candles : List Candle) (tick_size : ℚ)
    (hne : candles ≠ []) (hts : 0 < tick_size)
    (hwf : ∀ c ∈ candles, c.low ≤ c.high) :
    ∃ p, calculate_poc candles tick_size = some p ∧
      min_low candles - tick_size * (0.05 : ℚ) ≤ p ∧ p ≤ max_high candles := by
  have hadj : 0 < tick_size * (0.05 : ℚ) := by
    apply mul_pos hts
    norm_num
  have hprof := @market_profile_ne_nil candles (tick_size * (0.05 : ℚ)) hne hadj hwf
  obtain ⟨r, hr⟩ := idxmax_row_isSome hprof
  have hrmem := idxmax_row_mem hr
  obtain ⟨hcnt, hcnt_eq⟩ := mem_market_profile_count hrmem
  obtain ⟨c, hc, hlo, hhi⟩ := tpo_count_pos (fun hz => hcnt (hcnt_eq.trans hz))
  refine ⟨r.1, ?_, ?_, ?_⟩
  · simp only [calculate_poc]
    rw [if_neg (by simp [hne]), if_neg (by simp [hprof]), hr]
    rfl
  · have h1 := min_low_le hc
    linarith
  · have h2 := le_max_high hc
    linarith

/-- Witness for C4's amended theorem at the concrete one-candle profile. -/
theorem calculate_poc_range_witness :
    ∃ p, calculate_poc [poc_example_candle] 1 = some p ∧
      min_low [poc_example_candle] - 1 * (0.05 : ℚ) ≤ p ∧
      p ≤ max_high [poc_example_candle] :=
  calculate_poc_range [poc_example_candle] 1 (by simp) (by norm_num)
    (by
      intro c hc
      rw [List.mem_singleton] at hc
      subst hc
      norm_num [poc_example_candle])

/-- Witness for C3: the spec's example, three bins with counts
[2, 2, 1]; the POC resolves to the lowest-priced tied bin. -/
theorem poc_tiebreak_spec_witness :
    (idxmax_row [((1 : ℚ), 2), (2, 2), (3, 1)] = some (1, 2)) ∧
    ∃ r, idxmax_row [((1 : ℚ), 2), (2, 2), (3, 1)] = some r ∧
      r ∈ [((1 : ℚ), 2), (2, 2), (3, 1)] ∧
      (∀ x ∈ [((1 : ℚ), 2), (2, 2), (3, 1)], x.2 ≤ r.2) ∧
      (∀ x ∈ [((1 : ℚ), 2), (2, 2), (3, 1)], x.2 = r.2 → r.1 ≤ x.1) :=
  ⟨by norm_num [idxmax_row],
   poc_tiebreak_spec _ (by norm_num) (by simp)⟩

/-- C9.  When `check_trading_conditions` is asked to evaluate at a time
outside the 9:30-9:45 monitoring window, the window check only logs —
its early return is commented out in the source — so, provided the
9:30 candle-fetch gate has passed and all data is available, the
function proceeds to indicator computation and full signal evaluation
instead of skipping the instrument. -/
theorem check_outside_window (t : ClockTime) (poc atr ltp : ℚ)
    (fc : Candle) (rest : List Candle)
    (_hwin : in_monitoring_window t = false)
    (hready : first_candle_incomplete t = false)
    (hlen : rest ≠ []) :
    check_trading_conditions t (some poc) (some (fc :: rest)) (some atr) (some ltp) =
      evaluate poc atr fc ltp := by
  cases rest with
  | nil => exact absurd rfl hlen
  | cons b l =>
    simp only [check_trading_conditions, get_15min_candles, hready, Bool.false_eq_true,
      if_false]
    rw [if_neg (by simp only [List.length_cons]; omega)]
    rfl

/-- Witness for C9 at 10:00, strictly after the monitoring window. -/
theorem check_outside_window_witness :
    check_trading_conditions ⟨10, 0⟩ (some 100)
        (some [⟨102, 105, 101, 103⟩, ⟨104, 106, 103, 105⟩]) (some 4) (some 106) =
      evaluate 100 4 ⟨102, 105, 101, 103⟩ 106 :=
  check_outside_window ⟨10, 0⟩ 100 4 106 ⟨102, 105, 101, 103⟩ [⟨104, 106, 103, 105⟩]
    rfl rfl (List.cons_ne_nil _ _)

/-- C8 counterexample.  Two futures lists with DIFFERENT tick sizes
(0.10 and 0.25) produce identical `symbols.txt` contents — the
generator discards tick sizes — and the scheduler then assigns every
instrument the shared constant tick size 0.05, which is not the value
the external list carried. -/
theorem tick_size_counterexample :
    save_symbols [⟨"AFUT", 1/10⟩, ⟨"BFUT", 1/4⟩] = ["AFUT", "BFUT"] ∧
    (symbol_data ["AFUT", "BFUT"]).map Instrument.tick_size = [1/20, 1/20] ∧
    ¬((symbol_data ["AFUT", "BFUT"]).map Instrument.tick_size = [1/10, 1/4]) := by
  refine ⟨rfl, ?_, ?_⟩
  · simp only [symbol_data, List.map_cons, List.map_nil]
    norm_num
  · intro h
    have h0 : ((0.05 : ℚ)) = 1/10 := by
      have := congrArg (fun l => l.headD 0) h
      simpa [symbol_data] using this
    norm_num at h0

/-- C8 amended.  The instrument list consumed at process start is an
ordered list of symbols only (`save_symbols` writes just the symbol of
each future, discarding its tick size), and `signal_detection` pairs
every symbol with the constant tick size 0.05 shared by all
instruments. -/
theorem symbol_data_spec (futures_list : List Fut) (symbols : List String) :
    save_symbols futures_list = futures_list.map Fut.symbol ∧
    (symbol_data symbols).map Instrument.symbol = symbols ∧
    (symbol_data symbols).map Instrument.tick_size =
      symbols.map (fun _ => (0.05 : ℚ)) := by
  refine ⟨rfl, ?_, ?_⟩ <;> simp [symbol_data, Function.comp_def]

/-! ## Scheduler lemmas -/

theorem primary_pass_alerted (f : String → Outcome) (holidays : List ℤ) {s : String} :
    ∀ (items : List Instrument) (alerted : Finset String), s ∈ alerted →
      s ∈ (primary_pass f holidays items alerted).1 ∧
      s ∉ ((primary_pass f holidays items alerted).2.2).map Prod.fst := by
  intro items
  induction items with
  | nil => intro alerted hs; simpa [primary_pass] using hs
  | cons item rest ih =>
    intro alerted hs
    by_cases hmem : item.symbol ∈ alerted
    · simpa [primary_pass, hmem] using ih alerted hs
    · have hne : item.symbol ≠ s := fun h => hmem (h ▸ hs)
      cases hf : f item.symbol with
      | err =>
        have h := ih alerted hs
        refine ⟨?_, ?_⟩ <;> simp [primary_pass, hmem, hf, h.1, h.2, Ne.symm hne]
      | sig sg =>
        have h := ih (if sg.isSome then insert item.symbol alerted else alerted)
          (by split_ifs <;> [exact Finset.mem_insert_of_mem hs; exact hs])
        refine ⟨?_, ?_⟩ <;> simp [primary_pass, hmem, hf, h.1, h.2, Ne.symm hne]

theorem retry_pass_alerted (g : String → Outcome) (holidays : List ℤ) {s : String} :
    ∀ (items : List Instrument) (alerted : Finset String), s ∈ alerted →
      s ∈ (retry_pass g holidays items alerted).1 ∧
      s ∉ ((retry_pass g holidays items alerted).2).map Prod.fst := by
  intro items
  induction items with
  | nil => intro alerted hs; simpa [retry_pass] using hs
  | cons item rest ih =>
    intro alerted hs
    by_cases hmem : item.symbol ∈ alerted
    · simpa [retry_pass, hmem] using ih alerted hs
    · have hne : item.symbol ≠ s := fun h => hmem (h ▸ hs)
      cases hg : g item.symbol with
      | err =>
        have h := ih alerted hs
        refine ⟨?_, ?_⟩ <;> simp [retry_pass, hmem, hg, h.1, h.2, Ne.symm hne]
      | sig sg =>
        have h := ih (if sg.isSome then insert item.symbol alerted else alerted)
          (by split_ifs <;> [exact Finset.mem_insert_of_mem hs; exact hs])
        refine ⟨?_, ?_⟩ <;> simp [retry_pass, hmem, hg, h.1, h.2, Ne.symm hne]

theorem rollover_check_no_op {obs : Obs} {fresh : List ℤ} {st : SchedState}
    (hno : ¬ st.date < obs.date) : rollover_check obs fresh st = st := by
  simp [rollover_check, hno]

theorem cycle_alerted {instruments : List Instrument} {obs : Obs} {fresh : List ℤ}
    {f g : String → Outcome} {st : SchedState} {s : String}
    (hs : s ∈ st.alerted) (hno : ¬ st.date < obs.date) :
    s ∈ (cycle instruments obs fresh f g st).1.alerted ∧
    s ∉ ((cycle instruments obs fresh f g st).2).map Prod.fst ∧
    (cycle instruments obs fresh f g st).1.date = st.date := by
  unfold cycle
  rw [rollover_check_no_op hno]
  split_ifs with h1 h2
  · exact ⟨hs, by simp, rfl⟩
  · exact ⟨hs, by simp, rfl⟩
  · dsimp only
    have hp := primary_pass_alerted f st.holidays instruments st.alerted hs
    have hr := retry_pass_alerted g st.holidays
      (primary_pass f st.holidays instruments st.alerted).2.1
      (primary_pass f st.holidays instruments st.alerted).1 hp.1
    refine ⟨hr.1, ?_, rfl⟩
    rw [List.map_append, List.mem_append]
    exact not_or.mpr ⟨hp.2, hr.2⟩

/-- C5.  Once a symbol is in the alerted set, any number of further
scheduler cycles — each consisting of the primary pass and the
same-cycle retry pass — never calls `check_trading_conditions` for that
symbol again, as long as no cycle observes a date past the session's
stored date (which would be the rollover that clears the set). -/
theorem alerted_never_rechecked (instruments : List Instrument)
    (inputs : List CycleInput) (st : SchedState) (s : String)
    (hs : s ∈ st.alerted)
    (hno : ∀ inp ∈ inputs, inp.obs.date ≤ st.date) :
    s ∉ ((run_cycles instruments inputs st).2).map Prod.fst := by
  induction inputs generalizing st with
  | nil => simp [run_cycles]
  | cons inp rest ih =>
    have hc := @cycle_alerted instruments inp.obs inp.fresh inp.f inp.g st s hs
      (not_lt.mpr (hno inp (List.mem_cons_self inp rest)))
    have hrest : ∀ i ∈ rest,
        i.obs.date ≤ (cycle instruments inp.obs inp.fresh inp.f inp.g st).1.date := by
      intro i hi
      rw [hc.2.2]
      exact hno i (List.mem_cons_of_mem inp hi)
    have htail := ih _ hc.1 hrest
    simp only [run_cycles, List.map_append, List.mem_append]
    push_neg
    exact ⟨hc.2.1, htail⟩

/-- Witness for C5: symbol "A" already alerted on day 5 is never
checked in a subsequent same-day cycle at 9:35. -/
theorem alerted_never_rechecked_witness :
    "A" ∉ ((run_cycles (symbol_data ["A", "B"])
      [⟨⟨5, 9, 35⟩, [], fun _ => Outcome.sig none, fun _ => Outcome.sig none⟩]
      ⟨{"A"}, 5, []⟩).2).map Prod.fst :=
  alerted_never_rechecked _ _ _ "A" (by simp)
    (by
      intro inp h
      rw [List.mem_singleton] at h
      subst h
      exact le_refl 5)

theorem primary_pass_holidays {f : String → Outcome} {holidays : List ℤ} :
    ∀ (items : List Instrument) (alerted : Finset String),
      ∀ e ∈ (primary_pass f holidays items alerted).2.2, e.2 = holidays := by
  intro items
  induction items with
  | nil => intro alerted e he; simp [primary_pass] at he
  | cons item rest ih =>
    intro alerted e he
    by_cases hmem : item.symbol ∈ alerted
    · rw [primary_pass, if_pos hmem] at he
      exact ih alerted e he
    · rw [primary_pass, if_neg hmem] at he
      cases hf : f item.symbol with
      | err =>
        rw [hf] at he
        simp only [List.mem_cons] at he
        rcases he with he | he
        · rw [he]
        · exact ih alerted e he
      | sig sg =>
        rw [hf] at he
        simp only [List.mem_cons] at he
        rcases he with he | he
        · rw [he]
        · exact ih _ e he

theorem retry_pass_holidays {g : String → Outcome} {holidays : List ℤ} :
    ∀ (items : List Instrument) (alerted : Finset String),
      ∀ e ∈ (retry_pass g holidays items alerted).2, e.2 = holidays := by
  intro items
  induction items with
  | nil => intro alerted e he; simp [retry_pass] at he
  | cons item rest ih =>
    intro alerted e he
    by_cases hmem : item.symbol ∈ alerted
    · rw [retry_pass, if_pos hmem] at he
      exact ih alerted e he
    · rw [retry_pass, if_neg hmem] at he
      cases hg : g item.symbol with
      | err =>
        rw [hg] at he
        simp only [List.mem_cons] at he
        rcases he with he | he
        · rw [he]
        · exact ih alerted e he
      | sig sg =>
        rw [hg] at he
        simp only [List.mem_cons] at he
        rcases he with he | he
        · rw [he]
        · exact ih _ e he

theorem rollover_check_idem {obs : Obs} {fresh : List ℤ} {st : SchedState} :
    rollover_check obs fresh (rollover_check obs fresh st) =
      rollover_check obs fresh st := by
  by_cases h : st.date < obs.date <;>
    simp [rollover_check, h, lt_irrefl]

/-- C7.  The alerted set is cleared exactly when the observed calendar
date is strictly greater than the session's stored date (or was already
empty); the rollover check happens before anything else in the cycle
(the whole cycle behaves as if run from the post-rollover state); on a
rollover the stored date advances and the holiday calendar is replaced
by the fresh fetch; without a rollover the state is untouched; and
every `check_trading_conditions` call made during the cycle receives
the post-rollover holiday calendar. -/
theorem rollover_spec (instruments : List Instrument) (obs : Obs) (fresh : List ℤ)
    (f g : String → Outcome) (st : SchedState) :
    ((rollover_check obs fresh st).alerted = ∅ ↔
      (st.date < obs.date ∨ st.alerted = ∅)) ∧
    (st.date < obs.date →
      (rollover_check obs fresh st).holidays = fresh ∧
      (rollover_check obs fresh st).date = obs.date) ∧
    (¬ st.date < obs.date → rollover_check obs fresh st = st) ∧
    (∀ e ∈ (cycle instruments obs fresh f g st).2,
      e.2 = (rollover_check obs fresh st).holidays) ∧
    cycle instruments obs fresh f g st =
      cycle instruments obs fresh f g (rollover_check obs fresh st) := by
  refine ⟨?_, ?_, ?_, ?_, ?_⟩
  · by_cases h : st.date < obs.date <;> simp [rollover_check, h]
  · intro h
    simp [rollover_check, h]
  · intro h
    simp [rollover_check, h]
  · intro e he
    unfold cycle at he
    split_ifs at he with h1 h2
    · simp at he
    · simp at he
    · simp only [List.mem_append] at he
      rcases he with he | he
      · exact primary_pass_holidays instruments _ e he
      · exact retry_pass_holidays _ _ e he
  · unfold cycle
    rw [rollover_check_idem]

/-- Witness for C7: on day 5 with alerted set containing "A" and "B",
observing day 6 clears the set. -/
theorem rollover_spec_witness :
    (rollover_check ⟨6, 9, 35⟩ [42] ⟨{"A", "B"}, 5, []⟩).alerted = ∅ :=
  (rollover_spec [] ⟨6, 9, 35⟩ [42] (fun _ => Outcome.sig none)
      (fun _ => Outcome.sig none) ⟨{"A", "B"}, 5, []⟩).1.mpr
    (Or.inl (by norm_num))

/-! ## get_last_trading_day lemmas -/

theorem last_trading_aux_spec (holidays : List ℤ) :
    ∀ (n : ℕ) (d : ℤ),
      (∃ k : ℕ, k < n ∧ is_non_trading holidays (d - k) = false) →
      ∃ r, last_trading_aux holidays n d = some r ∧
        is_non_trading holidays r = false ∧ r ≤ d ∧
        ∀ e : ℤ, r < e → e ≤ d → is_non_trading holidays e = true := by
  intro n
  induction n with
  | zero =>
    intro d h
    obtain ⟨k, hk, _⟩ := h
    omega
  | succ n ih =>
    intro d h
    obtain ⟨k, hk, hgood⟩ := h
    by_cases hd : is_non_trading holidays d = true
    · have hk0 : k ≠ 0 := by
        intro h0
        subst h0
        rw [show d - ((0 : ℕ) : ℤ) = d by push_cast; ring] at hgood
        rw [hd] at hgood
        cases hgood
      obtain ⟨r, hr, hgr, hrd, hall⟩ := ih (d - 1) ⟨k - 1, by omega, by
        rw [show d - 1 - ((k - 1 : ℕ) : ℤ) = d - k by
          push_cast [Nat.cast_sub (Nat.one_le_iff_ne_zero.mpr hk0)]; ring]
        exact hgood⟩
      refine ⟨r, ?_, hgr, by omega, ?_⟩
      · rw [last_trading_aux, if_pos hd]
        exact hr
      · intro e her hed
        by_cases he : e = d
        · subst he
          exact hd
        · exact hall e her (by omega)
    · rw [Bool.not_eq_true] at hd
      refine ⟨d, ?_, hd, le_refl d, ?_⟩
      · rw [last_trading_aux, if_neg (by rw [hd]; exact Bool.false_ne_true)]
      · intro e h1 h2
        omega

theorem exists_good_day (current : ℤ) (holidays : List ℤ) :
    ∃ k : ℕ, k < 7 * (holidays.length + 1) ∧
      is_non_trading holidays (current - 1 - k) = false := by
  have h7 : (0:ℤ) ≤ (current + 2) % 7 := Int.emod_nonneg _ (by norm_num)
  have hlt7 : (current + 2) % 7 < 7 := Int.emod_lt_of_pos _ (by norm_num)
  obtain ⟨r0, hr0⟩ : ∃ r0 : ℕ, (r0 : ℤ) = (current + 2) % 7 :=
    ⟨((current + 2) % 7).toNat, Int.toNat_of_nonneg h7⟩
  have hweek : ∀ i : ℕ, weekday (current - 1 - (r0 + 7 * i : ℕ)) = 0 := by
    intro i
    unfold weekday
    push_cast
    omega
  by_contra hcon
  push_neg at hcon
  have hmem : ∀ i : ℕ, i < holidays.length + 1 →
      (current - 1 - ((r0 : ℤ) + 7 * (i : ℤ))) ∈ holidays := by
    intro i hi
    have hklt : r0 + 7 * i < 7 * (holidays.length + 1) := by omega
    have hbad := hcon (r0 + 7 * i) hklt
    rw [Bool.ne_false_iff] at hbad
    unfold is_non_trading at hbad
    rw [Bool.or_eq_true, decide_eq_true_eq, decide_eq_true_eq] at hbad
    rw [show (current - 1 - ((r0 : ℤ) + 7 * (i : ℤ))) =
        current - 1 - ((r0 + 7 * i : ℕ) : ℤ) by push_cast; ring]
    rcases hbad with h5 | hm
    · rw [hweek i] at h5
      omega
    · exact hm
  have hcard : (Finset.range (holidays.length + 1)).card ≤ holidays.toFinset.card := by
    apply Finset.card_le_card_of_injOn
      (fun i : ℕ => current - 1 - ((r0 : ℤ) + 7 * (i : ℤ)))
    · intro i hi
      rw [Finset.mem_range] at hi
      simp only [List.mem_toFinset]
      exact hmem i hi
    · intro a ha b hb hab
      simp only at hab
      omega
  rw [Finset.card_range] at hcard
  have htf := holidays.toFinset_card_le
  omega

/-- C10.  For every date and every finite list of holiday dates,
`get_last_trading_day` terminates (the chosen fuel suffices, so the
result is always `some`) and returns the latest date strictly before
the given date whose weekday is Monday through Friday and which is not
in the holiday list: the result qualifies, and every strictly later
date before `current` is a weekend day or a holiday. -/
theorem get_last_trading_day_spec (current : ℤ) (holidays : List ℤ) :
    ∃ d, get_last_trading_day current holidays = some d ∧
      d < current ∧ weekday d < 5 ∧ d ∉ holidays ∧
      ∀ e : ℤ, d < e → e < current → (5 ≤ weekday e ∨ e ∈ holidays) := by
  obtain ⟨k, hk, hgood⟩ := exists_good_day current holidays
  obtain ⟨r, hr, hgr, hrd, hall⟩ := last_trading_aux_spec holidays
    (7 * (holidays.length + 1)) (current - 1) ⟨k, hk, hgood⟩
  unfold is_non_trading at hgr
  rw [Bool.or_eq_false_iff, decide_eq_false_iff_not, decide_eq_false_iff_not] at hgr
  refine ⟨r, hr, by omega, by omega, hgr.2, ?_⟩
  intro e h1 h2
  have he := hall e h1 (by omega)
  unfold is_non_trading at he
  rw [Bool.or_eq_true, decide_eq_true_eq, decide_eq_true_eq] at he
  exact he

/-- Witness for C10: with no holidays, applied at day 10 (a Sunday,
1970-01-11); the result is day 8 (the preceding Friday). -/
theorem get_last_trading_day_spec_witness :
    ∃ d, get_last_trading_day 10 [] = some d ∧
      d < 10 ∧ weekday d < 5 ∧ d ∉ ([] : List ℤ) ∧
      ∀ e : ℤ, d < e → e < 10 → (5 ≤ weekday e ∨ e ∈ ([] : List ℤ)) :=
  get_last_trading_day_spec 10 []

end Alpha15
